import Mathlib

/-!
# TinyGuard sample: a growable vector of C ints

A shallow embedding of `samples/main.c`.

Conventions of the embedding.

* `size_t` is an unsigned 64-bit integer: a natural number, every arithmetic
  result taken modulo `SIZE_MOD = 2 ^ 64`.
* `int` is a signed 32-bit integer: an integer in `[INT_MIN, INT_MAX]`, and
  the subtraction of `compare_ints` wraps modulo `2 ^ 32`.
* The heap buffer behind `data` is the list of its slots; the null pointer
  and an empty allocation are both the empty list.  The specification makes
  an allocation failure fatal and leaves it outside the contract, so `malloc`
  stands for an allocation that succeeds.  The content of fresh slots is
  indeterminate in C; it is `0` here, and the theorems speak of the slots at
  the indices `[0, size)` only.
* An object a program can hold has at most `PTRDIFF_MAX = 2 ^ 63 - 1` bytes;
  a well-formed container has a buffer within that limit.
* A read or a write outside the buffer is undefined behaviour in C; here the
  operation returns `none`.  A loop is run with fuel and returns `none` when
  the fuel runs out; the theorems show that the fuel given always suffices.
-/

namespace TinyGuard

/-- Number of values of a `size_t`. -/
def SIZE_MOD : Nat := 2 ^ 64

/-- Value of `sizeof(int)`. -/
def sizeof_int : Nat := 4

/-- Smallest value of an `int`. -/
def INT_MIN : Int := -2147483648

/-- Largest value of an `int`. -/
def INT_MAX : Int := 2147483647

/-- Result of converting a mathematical integer to a 32-bit `int` by wrapping. -/
def wrap_int (x : Int) : Int := (x + 2147483648) % 4294967296 - 2147483648

/-- The struct `IntVector`. -/
structure IntVector where
  size : Nat
  capacity : Nat
  data : List Int
deriving DecidableEq, Repr

/-- Buffer returned by a call `malloc(bytes)` that succeeds, seen as an array
of `int`. -/
def malloc (bytes : Nat) : List Int := List.replicate (bytes / sizeof_int) 0

/-- Function `IntVector_new`. -/
def IntVector_new : IntVector := { size := 0, capacity := 0, data := [] }

/-- The loop `for (i = 0; i < size; i++) new_data[i] = data[i];` of
`IntVector_push_back`, started at index `i` with `new_data = dst`. -/
def push_back_copy (src : List Int) (size : Nat) : Nat → Nat → List Int → Option (List Int)
  | 0, i, dst => if i < size then none else some dst
  | fuel + 1, i, dst =>
    if i < size then
      match src[i]? with
      | none => none
      | some x =>
        if i < dst.length then
          push_back_copy src size fuel ((i + 1) % SIZE_MOD) (dst.set i x)
        else none
    else some dst

/-- The expression `v->capacity == 0 ? 1 : v->capacity * 2`. -/
def new_capacity (capacity : Nat) : Nat :=
  if capacity = 0 then 1 else (capacity * 2) % SIZE_MOD

/-- The `if (v->size == v->capacity)` block of `IntVector_push_back`. -/
def push_back_grow (v : IntVector) : Option IntVector :=
  if v.size = v.capacity then
    let new_data := malloc ((new_capacity v.capacity * sizeof_int) % SIZE_MOD)
    match push_back_copy v.data v.size v.size 0 new_data with
    | none => none
    | some d => some { v with data := d, capacity := new_capacity v.capacity }
  else some v

/-- The statements `v->data[v->size] = value; v->size++;`. -/
def push_back_store (v : IntVector) (value : Int) : Option IntVector :=
  if v.size < v.data.length then
    some { v with data := v.data.set v.size value, size := (v.size + 1) % SIZE_MOD }
  else none

/-- Function `IntVector_push_back`. -/
def IntVector_push_back (v : IntVector) (value : Int) : Option IntVector :=
  match push_back_grow v with
  | none => none
  | some w => push_back_store w value

/-- Function `IntVector_free`. -/
def IntVector_free (_v : IntVector) : IntVector := { size := 0, capacity := 0, data := [] }

/-- Function `compare_ints`, on the two pointed-to values. -/
def compare_ints (a b : Int) : Int := wrap_int (a - b)

/-- Insertion of `x` in front of the first element that the comparator does
not place before it. -/
def qsort_insert (compar : Int → Int → Int) (x : Int) : List Int → List Int
  | [] => [x]
  | y :: ys => if compar x y ≤ 0 then x :: y :: ys else y :: qsort_insert compar x ys

/-- Insertion sort of a list, driven by the sign of the comparator. -/
def qsort_list (compar : Int → Int → Int) : List Int → List Int
  | [] => []
  | x :: xs => qsort_insert compar x (qsort_list compar xs)

/-- Modelled from the spec: the C library routine `qsort` is not part of the
source.  The spec calls it "a general-purpose comparison sort"; it is taken to
be an insertion sort of the first `nmemb` elements which consults only the
sign of `compar`. -/
def qsort (base : List Int) (nmemb : Nat) (compar : Int → Int → Int) : Option (List Int) :=
  if nmemb ≤ base.length then
    some (qsort_list compar (base.take nmemb) ++ base.drop nmemb)
  else none

/-- Function `IntVector_sort`. -/
def IntVector_sort (v : IntVector) : Option IntVector :=
  match qsort v.data v.size compare_ints with
  | none => none
  | some d => some { v with data := d }

/-- The loop of `IntVector_search`, started at index `i`. -/
def search_loop (v : IntVector) (value : Int) : Nat → Nat → Option Nat
  | 0, i => if i < v.size then none else some v.size
  | fuel + 1, i =>
    if i < v.size then
      match v.data[i]? with
      | none => none
      | some x => if x = value then some i else search_loop v value fuel ((i + 1) % SIZE_MOD)
    else some v.size

/-- Function `IntVector_search`. -/
def IntVector_search (v : IntVector) (value : Int) : Option Nat :=
  search_loop v value v.size 0

/-- The loop of `IntVector_search_sorted`, started with the given `left` and `right`. -/
def search_sorted_loop (v : IntVector) (value : Int) : Nat → Nat → Nat → Option Nat
  | 0, left, right => if left < right then none else some left
  | fuel + 1, left, right =>
    if left < right then
      let middle := (left + (right - left) / 2) % SIZE_MOD
      match v.data[middle]? with
      | none => none
      | some x =>
        if x < value then search_sorted_loop v value fuel ((middle + 1) % SIZE_MOD) right
        else search_sorted_loop v value fuel left middle
    else some left

/-- Function `IntVector_search_sorted`. -/
def IntVector_search_sorted (v : IntVector) (value : Int) : Option Nat :=
  search_sorted_loop v value v.size 0 v.size

/-- Live elements of a container: the slots at the indices `[0, size)`. -/
def IntVector.elems (v : IntVector) : List Int := v.data.take v.size

/-- Container whose fields agree with its storage: `size <= capacity`, the
storage holds `capacity` slots, and `capacity` is a `size_t` value. -/
def Coherent (v : IntVector) : Prop :=
  v.size ≤ v.capacity ∧ v.data.length = v.capacity ∧ v.capacity < SIZE_MOD

/-- Largest size in bytes of an object that a program can hold. -/
def PTRDIFF_MAX : Nat := 2 ^ 63 - 1

/-- Number of `int` slots whose buffer a program can hold. -/
def Holdable (slots : Nat) : Prop := slots * sizeof_int ≤ PTRDIFF_MAX

/-- Well-formed container: `size <= capacity`, the storage holds `capacity`
slots, and the storage is a buffer that a program can hold. -/
def WellFormed (v : IntVector) : Prop :=
  v.size ≤ v.capacity ∧ v.data.length = v.capacity ∧ Holdable v.capacity

/-- Container whose storage holds its live elements, `size` being a `size_t`. -/
def HoldsElems (v : IntVector) : Prop := v.size ≤ v.data.length ∧ v.size < SIZE_MOD

/-- Non-decreasing list: `l[i] <= l[i+1]` at every adjacent pair of indices. -/
def NonDecreasing (l : List Int) : Prop :=
  ∀ i, i < l.length - 1 → l.getD i 0 ≤ l.getD (i + 1) 0

/-- Calls of `IntVector_push_back` with the given values, in order. -/
def push_back_all : IntVector → List Int → Option IntVector
  | v, [] => some v
  | v, x :: xs =>
    match IntVector_push_back v x with
    | none => none
    | some w => push_back_all w xs

/-- Container on which `IntVector_push_back` can grow: either a slot is free,
or the doubled capacity, counted in bytes, fits a `size_t`. -/
def FitsGrowth (v : IntVector) : Prop :=
  v.size < v.capacity ∨ v.capacity * 2 * sizeof_int < SIZE_MOD

/-- Capacity policy of the container: empty without storage, or a capacity
that is a power of two and less than twice the size. -/
def PowTwoCapacity (v : IntVector) : Prop :=
  (v.size = 0 ∧ v.capacity = 0) ∨ (∃ k, v.capacity = 2 ^ k ∧ v.capacity < 2 * v.size)

/-- One iteration of the loop of `IntVector_search_sorted`: the values of
`left` and `right` at the loop test, and the value of
`left + (right - left) / 2` before it is stored in the `size_t middle`. -/
structure SearchStep where
  left : Nat
  right : Nat
  middle : Nat
deriving DecidableEq, Repr

/-- Iterations that the loop of `IntVector_search_sorted` runs, in order,
started with the given `left` and `right`. -/
def search_sorted_steps (v : IntVector) (value : Int) : Nat → Nat → Nat → List SearchStep
  | 0, _, _ => []
  | fuel + 1, left, right =>
    if left < right then
      let middle := (left + (right - left) / 2) % SIZE_MOD
      { left := left, right := right, middle := left + (right - left) / 2 } ::
        match v.data[middle]? with
        | none => []
        | some x =>
          if x < value then search_sorted_steps v value fuel ((middle + 1) % SIZE_MOD) right
          else search_sorted_steps v value fuel left middle
    else []

/-- Number of executions of `new_data[i] = data[i]` in the copy loop of
`IntVector_push_back`, started at index `i` with `new_data = dst`. -/
def push_back_copy_count (src : List Int) (size : Nat) : Nat → Nat → List Int → Option Nat
  | 0, i, _ => if i < size then none else some 0
  | fuel + 1, i, dst =>
    if i < size then
      match src[i]? with
      | none => none
      | some x =>
        if i < dst.length then
          match push_back_copy_count src size fuel ((i + 1) % SIZE_MOD) (dst.set i x) with
          | none => none
          | some c => some (c + 1)
        else none
    else some 0

/-- Number of element copies that one call of `IntVector_push_back` makes. -/
def push_back_copies (v : IntVector) : Option Nat :=
  if v.size = v.capacity then
    push_back_copy_count v.data v.size v.size 0
      (malloc ((new_capacity v.capacity * sizeof_int) % SIZE_MOD))
  else some 0

/-- Total number of element copies made by the calls of `IntVector_push_back`
with the given values, in order. -/
def push_back_all_copies : IntVector → List Int → Option Nat
  | _, [] => some 0
  | v, x :: xs =>
    match push_back_copies v, IntVector_push_back v x with
    | some c, some w =>
      match push_back_all_copies w xs with
      | none => none
      | some t => some (c + t)
    | _, _ => none

/-- States that a program reaches from `IntVector_new` by calls of
`IntVector_push_back`, `IntVector_sort` and `IntVector_free` that return. -/
inductive Reachable : IntVector → Prop
  | new : Reachable IntVector_new
  | push_back {v w : IntVector} (value : Int) :
      Reachable v → IntVector_push_back v value = some w → Reachable w
  | sort {v w : IntVector} : Reachable v → IntVector_sort v = some w → Reachable w
  | free {v : IntVector} : Reachable v → Reachable (IntVector_free v)

instance (v : IntVector) : Decidable (FitsGrowth v) := by
  unfold FitsGrowth; exact inferInstance

instance (v : IntVector) : Decidable (Coherent v) := by
  unfold Coherent; exact inferInstance

instance (n : Nat) : Decidable (Holdable n) := by
  unfold Holdable; exact inferInstance

instance (v : IntVector) : Decidable (WellFormed v) := by
  unfold WellFormed; exact inferInstance

instance (v : IntVector) : Decidable (HoldsElems v) := by
  unfold HoldsElems; exact inferInstance

instance (l : List Int) : Decidable (NonDecreasing l) := by
  unfold NonDecreasing; exact inferInstance

/-! ## Arithmetic of `size_t` -/

theorem size_mod_of_lt {n : Nat} (h : n < SIZE_MOD) : n % SIZE_MOD = n :=
  Nat.mod_eq_of_lt h

/-! ## Linear search -/

theorem search_loop_spec (v : IntVector) (value : Int) (hv : HoldsElems v) :
    ∀ fuel i, i ≤ v.size → v.size - i ≤ fuel →
      (∀ j, j < i → v.data[j]? ≠ some value) →
      ∃ r, search_loop v value fuel i = some r ∧ r ≤ v.size ∧
        (∀ j, j < r → v.data[j]? ≠ some value) ∧
        (r < v.size → v.data[r]? = some value) := by
  intro fuel
  induction fuel with
  | zero =>
    intro i hi hfuel hbefore
    have hieq : i = v.size := by omega
    subst hieq
    refine ⟨v.size, ?_, le_refl _, hbefore, fun h => absurd h (lt_irrefl _)⟩
    simp [search_loop]
  | succ fuel ih =>
    intro i hi hfuel hbefore
    by_cases hlt : i < v.size
    · have hlen : i < v.data.length := lt_of_lt_of_le hlt hv.1
      have hget : v.data[i]? = some v.data[i] := List.getElem?_eq_getElem hlen
      by_cases hx : v.data[i] = value
      · refine ⟨i, ?_, hi, hbefore, fun _ => by rw [hget, hx]⟩
        simp [search_loop, hlt, hget, hx]
      · have hstep : (i + 1) % SIZE_MOD = i + 1 := size_mod_of_lt (by have := hv.2; omega)
        have hbefore2 : ∀ j, j < i + 1 → v.data[j]? ≠ some value := by
          intro j hj
          by_cases hji : j = i
          · subst hji
            rw [hget]
            simpa using hx
          · exact hbefore j (by omega)
        obtain ⟨r, hr, hrest⟩ := ih (i + 1) (by omega) (by omega) hbefore2
        refine ⟨r, ?_, hrest⟩
        simp [search_loop, hlt, hget, hx, hstep, hr]
    · have hieq : i = v.size := by omega
      subst hieq
      refine ⟨v.size, ?_, le_refl _, hbefore, fun h => absurd h (lt_irrefl _)⟩
      simp [search_loop]

/-- C2: on every container, `IntVector_search` returns an index `r <= size`;
`r = size` exactly when no element at an index in `[0, size)` equals the
value, and otherwise `r` is the smallest index whose element equals it. -/
theorem IntVector_search_first_match (v : IntVector) (value : Int) (hv : HoldsElems v) :
    ∃ r, IntVector_search v value = some r ∧ r ≤ v.size ∧
      (r = v.size ↔ ∀ i, i < v.size → v.data[i]? ≠ some value) ∧
      (r ≠ v.size → v.data[r]? = some value ∧ ∀ j, j < r → v.data[j]? ≠ some value) := by
  obtain ⟨r, hr, hle, hbefore, hat⟩ :=
    search_loop_spec v value hv v.size 0 (Nat.zero_le _) (by omega) (fun j hj => absurd hj (Nat.not_lt_zero j))
  refine ⟨r, hr, hle, ⟨?_, ?_⟩, ?_⟩
  · intro h
    subst h
    exact hbefore
  · intro hnone
    by_contra hne
    have hlt : r < v.size := lt_of_le_of_ne hle hne
    exact hnone r hlt (hat hlt)
  · intro hne
    exact ⟨hat (lt_of_le_of_ne hle hne), hbefore⟩

/-- Witness of C2 on the container `[3, 1, 4, 1]`, searched for `1`. -/
theorem IntVector_search_first_match_witness :
    HoldsElems ⟨4, 4, [3, 1, 4, 1]⟩ ∧
    ∃ r, IntVector_search ⟨4, 4, [3, 1, 4, 1]⟩ 1 = some r ∧ r ≤ 4 ∧
      (r = 4 ↔ ∀ i, i < 4 → ([3, 1, 4, 1] : List Int)[i]? ≠ some 1) ∧
      (r ≠ 4 → ([3, 1, 4, 1] : List Int)[r]? = some 1 ∧
        ∀ j, j < r → ([3, 1, 4, 1] : List Int)[j]? ≠ some 1) :=
  ⟨by decide, IntVector_search_first_match ⟨4, 4, [3, 1, 4, 1]⟩ 1 (by decide)⟩

/-! ## Binary search -/

theorem nonDecreasing_mono {l : List Int} (h : NonDecreasing l) :
    ∀ d i, i + d < l.length → l.getD i 0 ≤ l.getD (i + d) 0 := by
  intro d
  induction d with
  | zero => intro i _; exact le_refl _
  | succ d ih =>
    intro i hi
    have h1 := ih i (by omega)
    have h2 := h (i + d) (by omega)
    exact le_trans h1 h2

theorem elems_length {v : IntVector} (hv : HoldsElems v) : v.elems.length = v.size := by
  simp [IntVector.elems, List.length_take, hv.1]

theorem elems_getD {v : IntVector} {i : Nat} (hi : i < v.size) :
    v.elems.getD i 0 = v.data.getD i 0 := by
  simp [IntVector.elems, List.getD_eq_getElem?_getD, List.getElem?_take, hi]

theorem data_mono {v : IntVector} (hv : HoldsElems v) (hs : NonDecreasing v.elems) :
    ∀ i j, i ≤ j → j < v.size → v.data.getD i 0 ≤ v.data.getD j 0 := by
  intro i j hij hj
  have h := nonDecreasing_mono hs (j - i) i (by rw [elems_length hv]; omega)
  have hji : i + (j - i) = j := by omega
  rw [hji, elems_getD hj, elems_getD (lt_of_le_of_lt hij hj)] at h
  exact h

theorem getElem?_eq_some_getD {l : List Int} {i : Nat} (hi : i < l.length) :
    l[i]? = some (l.getD i 0) := by
  simp [List.getD_eq_getElem?_getD, List.getElem?_eq_getElem hi]

theorem search_sorted_loop_spec (v : IntVector) (value : Int) (hv : HoldsElems v)
    (hmono : ∀ i j, i ≤ j → j < v.size → v.data.getD i 0 ≤ v.data.getD j 0) :
    ∀ fuel left right, left ≤ right → right ≤ v.size → right - left ≤ fuel →
      (∀ i, i < left → v.data.getD i 0 < value) →
      (∀ i, right ≤ i → i < v.size → value ≤ v.data.getD i 0) →
      ∃ r, search_sorted_loop v value fuel left right = some r ∧ r ≤ v.size ∧
        (∀ i, i < r → v.data.getD i 0 < value) ∧
        (∀ i, r ≤ i → i < v.size → value ≤ v.data.getD i 0) := by
  intro fuel
  induction fuel with
  | zero =>
    intro left right hlr hrs hfuel hlow hhigh
    have heq : left = right := by omega
    subst heq
    exact ⟨left, by simp [search_sorted_loop], hrs, hlow, hhigh⟩
  | succ fuel ih =>
    intro left right hlr hrs hfuel hlow hhigh
    by_cases hlt : left < right
    · have hsize := hv.2
      have hmid : (left + (right - left) / 2) % SIZE_MOD = left + (right - left) / 2 :=
        size_mod_of_lt (by omega)
      have hmlt : left + (right - left) / 2 < right := by omega
      have hmsucc : (left + (right - left) / 2 + 1) % SIZE_MOD = left + (right - left) / 2 + 1 :=
        size_mod_of_lt (by omega)
      have hlen : left + (right - left) / 2 < v.data.length := by have := hv.1; omega
      have hget := getElem?_eq_some_getD hlen
      by_cases hx : v.data.getD (left + (right - left) / 2) 0 < value
      · have hlow2 : ∀ i, i < left + (right - left) / 2 + 1 → v.data.getD i 0 < value := by
          intro i hi
          exact lt_of_le_of_lt (hmono i _ (by omega) (by omega)) hx
        obtain ⟨r, hr, hrest⟩ :=
          ih (left + (right - left) / 2 + 1) right (by omega) hrs (by omega) hlow2 hhigh
        refine ⟨r, ?_, hrest⟩
        simp only [search_sorted_loop, hlt, if_true, hmid, hget, hx, hmsucc, hr]
      · have hhigh2 : ∀ i, left + (right - left) / 2 ≤ i → i < v.size →
            value ≤ v.data.getD i 0 := by
          intro i hi his
          exact le_trans (not_lt.mp hx) (hmono _ i hi his)
        obtain ⟨r, hr, hrest⟩ :=
          ih left (left + (right - left) / 2) (by omega) (by omega) (by omega) hlow hhigh2
        refine ⟨r, ?_, hrest⟩
        simp only [search_sorted_loop, hlt, if_true, hmid, hget, hx, if_false, hr]
    · have heq : left = right := by omega
      subst heq
      exact ⟨left, by simp [search_sorted_loop], hrs, hlow, hhigh⟩

/-- C1: on every container whose elements are non-decreasing,
`IntVector_search_sorted` returns an index `r` with `0 <= r <= size` such that
every element at an index `< r` is `< value` and every element at an index
`>= r` and `< size` is `>= value`. -/
theorem IntVector_search_sorted_lower_bound (v : IntVector) (value : Int)
    (hv : HoldsElems v) (hs : NonDecreasing v.elems) :
    ∃ r, IntVector_search_sorted v value = some r ∧ r ≤ v.size ∧
      (∀ i, i < r → ∃ x, v.data[i]? = some x ∧ x < value) ∧
      (∀ i, r ≤ i → i < v.size → ∃ x, v.data[i]? = some x ∧ value ≤ x) := by
  obtain ⟨r, hr, hle, hlow, hhigh⟩ :=
    search_sorted_loop_spec v value hv (data_mono hv hs) v.size 0 v.size (Nat.zero_le _)
      (le_refl _) (by omega) (fun i hi => absurd hi (Nat.not_lt_zero i))
      (fun i h1 h2 => absurd h2 (not_lt.mpr h1))
  refine ⟨r, hr, hle, ?_, ?_⟩
  · intro i hi
    exact ⟨_, getElem?_eq_some_getD (by have := hv.1; omega), hlow i hi⟩
  · intro i hi his
    exact ⟨_, getElem?_eq_some_getD (by have := hv.1; omega), hhigh i hi his⟩

/-- Witness of C1 on the sorted container `[1, 1, 3, 4]`, searched for `3`. -/
theorem IntVector_search_sorted_lower_bound_witness :
    HoldsElems ⟨4, 4, [1, 1, 3, 4]⟩ ∧ NonDecreasing (IntVector.elems ⟨4, 4, [1, 1, 3, 4]⟩) ∧
    ∃ r, IntVector_search_sorted ⟨4, 4, [1, 1, 3, 4]⟩ 3 = some r ∧ r ≤ 4 ∧
      (∀ i, i < r → ∃ x, ([1, 1, 3, 4] : List Int)[i]? = some x ∧ x < 3) ∧
      (∀ i, r ≤ i → i < 4 → ∃ x, ([1, 1, 3, 4] : List Int)[i]? = some x ∧ 3 ≤ x) :=
  ⟨by decide, by decide,
    IntVector_search_sorted_lower_bound ⟨4, 4, [1, 1, 3, 4]⟩ 3 (by decide) (by decide)⟩

/-! ## Sorting -/

theorem qsort_insert_perm (compar : Int → Int → Int) (x : Int) :
    ∀ l, (qsort_insert compar x l).Perm (x :: l) := by
  intro l
  induction l with
  | nil => exact List.Perm.refl _
  | cons y ys ih =>
    by_cases h : compar x y ≤ 0
    · simp [qsort_insert, h]
    · simp only [qsort_insert, h, if_false]
      exact (List.Perm.cons y ih).trans (List.Perm.swap x y ys)

theorem qsort_list_perm (compar : Int → Int → Int) :
    ∀ l, (qsort_list compar l).Perm l := by
  intro l
  induction l with
  | nil => exact List.Perm.refl _
  | cons x xs ih =>
    simp only [qsort_list]
    exact (qsort_insert_perm compar x _).trans (List.Perm.cons x ih)

theorem qsort_list_length (compar : Int → Int → Int) (l : List Int) :
    (qsort_list compar l).length = l.length :=
  (qsort_list_perm compar l).length_eq

theorem IntVector_sort_eq (v : IntVector) (h : v.size ≤ v.data.length) :
    IntVector_sort v =
      some { v with data := qsort_list compare_ints (v.data.take v.size) ++ v.data.drop v.size } := by
  simp [IntVector_sort, qsort, h]

theorem sorted_elems (v : IntVector) (h : v.size ≤ v.data.length) :
    IntVector.elems
        { v with data := qsort_list compare_ints (v.data.take v.size) ++ v.data.drop v.size } =
      qsort_list compare_ints v.elems := by
  have hlen : (qsort_list compare_ints (v.data.take v.size)).length = v.size := by
    rw [qsort_list_length, List.length_take, Nat.min_eq_left h]
  simp only [IntVector.elems]
  rw [List.take_append_of_le_length (le_of_eq hlen.symm), List.take_of_length_le (le_of_eq hlen)]

/-- C10: `IntVector_sort` only reorders.  On every container it returns a
container of the same size and capacity whose elements at the indices
`[0, size)` are a permutation of the elements before the sort; the slots
beyond `size` are untouched. -/
theorem IntVector_sort_reorders (v : IntVector) (hv : HoldsElems v) :
    ∃ w, IntVector_sort v = some w ∧ w.size = v.size ∧ w.capacity = v.capacity ∧
      w.elems.Perm v.elems ∧ w.data.length = v.data.length ∧
      w.data.drop v.size = v.data.drop v.size := by
  refine ⟨_, IntVector_sort_eq v hv.1, rfl, rfl, ?_, ?_, ?_⟩
  · rw [sorted_elems v hv.1]
    exact qsort_list_perm compare_ints _
  · have := hv.1
    simp only [List.length_append, qsort_list_length, List.length_take, List.length_drop]
    omega
  · have hlen : (qsort_list compare_ints (v.data.take v.size)).length = v.size := by
      rw [qsort_list_length, List.length_take, Nat.min_eq_left hv.1]
    simp only []
    rw [List.drop_append_of_le_length (le_of_eq hlen.symm), List.drop_of_length_le (le_of_eq hlen)]
    rfl

/-- Witness of C10 on the container `[3, 1, 4, 1]`. -/
theorem IntVector_sort_reorders_witness :
    HoldsElems ⟨4, 4, [3, 1, 4, 1]⟩ ∧
    ∃ w, IntVector_sort ⟨4, 4, [3, 1, 4, 1]⟩ = some w ∧ w.size = 4 ∧ w.capacity = 4 ∧
      w.elems.Perm (IntVector.elems ⟨4, 4, [3, 1, 4, 1]⟩) ∧ w.data.length = 4 ∧
      w.data.drop 4 = ([3, 1, 4, 1] : List Int).drop 4 :=
  ⟨by decide, IntVector_sort_reorders ⟨4, 4, [3, 1, 4, 1]⟩ (by decide)⟩

theorem compare_ints_not_le (a b : Int) (h : ¬ compare_ints a b ≤ 0) : compare_ints b a ≤ 0 := by
  unfold compare_ints wrap_int at *
  omega

theorem qsort_insert_chain (compar : Int → Int → Int)
    (htot : ∀ a b, ¬ compar a b ≤ 0 → compar b a ≤ 0) (x : Int) :
    ∀ l, List.Chain' (fun a b => compar a b ≤ 0) l →
      List.Chain' (fun a b => compar a b ≤ 0) (qsort_insert compar x l) := by
  intro l
  induction l with
  | nil => intro _; simp [qsort_insert]
  | cons y ys ih =>
    intro hl
    by_cases h : compar x y ≤ 0
    · simp only [qsort_insert, h, if_true]
      exact List.Chain'.cons h hl
    · simp only [qsort_insert, h, if_false]
      have htail := ih hl.tail
      cases ys with
      | nil =>
        simp only [qsort_insert]
        exact List.Chain'.cons (htot x y h) (List.chain'_singleton x)
      | cons z zs =>
        have hyz : compar y z ≤ 0 := (List.chain'_cons.mp hl).1
        by_cases hxz : compar x z ≤ 0
        · simp only [qsort_insert, hxz, if_true] at htail ⊢
          exact List.Chain'.cons (htot x y h) htail
        · simp only [qsort_insert, hxz, if_false] at htail ⊢
          exact List.Chain'.cons hyz htail

theorem qsort_list_chain (compar : Int → Int → Int)
    (htot : ∀ a b, ¬ compar a b ≤ 0 → compar b a ≤ 0) :
    ∀ l, List.Chain' (fun a b => compar a b ≤ 0) (qsort_list compar l) := by
  intro l
  induction l with
  | nil => simp [qsort_list]
  | cons x xs ih => exact qsort_insert_chain compar htot x _ ih

theorem qsort_list_of_chain (compar : Int → Int → Int) :
    ∀ l, List.Chain' (fun a b => compar a b ≤ 0) l → qsort_list compar l = l := by
  intro l
  induction l with
  | nil => intro _; rfl
  | cons x xs ih =>
    intro hl
    simp only [qsort_list, ih hl.tail]
    cases xs with
    | nil => rfl
    | cons y ys =>
      have hxy : compar x y ≤ 0 := (List.chain'_cons.mp hl).1
      simp only [qsort_insert, hxy, if_true]

/-- In the model of `qsort`, a second `IntVector_sort` changes nothing, also
where `compare_ints` overflows. -/
theorem IntVector_sort_twice (v : IntVector) (hv : HoldsElems v) :
    ∃ w, IntVector_sort v = some w ∧ IntVector_sort w = some w := by
  have hlen : (qsort_list compare_ints (v.data.take v.size)).length = v.size := by
    rw [qsort_list_length, List.length_take, Nat.min_eq_left hv.1]
  refine ⟨_, IntVector_sort_eq v hv.1, ?_⟩
  rw [IntVector_sort_eq _ (by simp only [List.length_append, hlen]; omega)]
  simp only []
  rw [List.take_append_of_le_length (le_of_eq hlen.symm), List.take_of_length_le (le_of_eq hlen),
    List.drop_append_of_le_length (le_of_eq hlen.symm), List.drop_of_length_le (le_of_eq hlen),
    qsort_list_of_chain compare_ints _ (qsort_list_chain compare_ints compare_ints_not_le _)]
  rfl

/-- C3: the container `[1, -2147483648]` holds two values of a 32-bit `int`;
`compare_ints 1 (-2147483648)` wraps to a negative number and
`compare_ints (-2147483648) 1` to a positive one, so `IntVector_sort` leaves
the container as it is, with `data[0] > data[1]`. -/
theorem IntVector_sort_leaves_unsorted :
    HoldsElems ⟨2, 2, [1, -2147483648]⟩ ∧
    INT_MIN ≤ -2147483648 ∧ 1 ≤ INT_MAX ∧
    compare_ints 1 (-2147483648) = -2147483647 ∧
    compare_ints (-2147483648) 1 = 2147483647 ∧
    IntVector_sort ⟨2, 2, [1, -2147483648]⟩ = some ⟨2, 2, [1, -2147483648]⟩ ∧
    ¬ NonDecreasing (IntVector.elems ⟨2, 2, [1, -2147483648]⟩) := by
  decide

/-- C9: the container `[-2, 2147483647]` is non-decreasing, yet
`compare_ints (-2) 2147483647` wraps to `2147483647 > 0` and `IntVector_sort`
swaps the two elements. -/
theorem IntVector_sort_changes_sorted :
    HoldsElems ⟨2, 2, [-2, 2147483647]⟩ ∧
    INT_MIN ≤ -2 ∧ 2147483647 ≤ INT_MAX ∧
    NonDecreasing (IntVector.elems ⟨2, 2, [-2, 2147483647]⟩) ∧
    compare_ints (-2) 2147483647 = 2147483647 ∧
    compare_ints 2147483647 (-2) = -2147483647 ∧
    IntVector_sort ⟨2, 2, [-2, 2147483647]⟩ = some ⟨2, 2, [2147483647, -2]⟩ := by
  decide

/-! ## Appending -/

theorem push_back_copy_spec (src : List Int) (size : Nat) (hs : size ≤ src.length)
    (hsz : size < SIZE_MOD) :
    ∀ fuel i dst, i ≤ size → size - i ≤ fuel → size ≤ dst.length →
      ∃ d, push_back_copy src size fuel i dst = some d ∧ d.length = dst.length ∧
        (∀ j, j < i → d[j]? = dst[j]?) ∧
        (∀ j, i ≤ j → j < size → d[j]? = src[j]?) ∧
        (∀ j, size ≤ j → d[j]? = dst[j]?) := by
  intro fuel
  induction fuel with
  | zero =>
    intro i dst hi hfuel _
    have hieq : i = size := by omega
    subst hieq
    refine ⟨dst, by simp [push_back_copy], rfl, fun _ _ => rfl, ?_, fun _ _ => rfl⟩
    intro j h1 h2
    omega
  | succ fuel ih =>
    intro i dst hi hfuel hdst
    by_cases hlt : i < size
    · have hsrc : src[i]? = some src[i] := List.getElem?_eq_getElem (by omega)
      have hid : i < dst.length := by omega
      have hstep : (i + 1) % SIZE_MOD = i + 1 := size_mod_of_lt (by omega)
      obtain ⟨d, hd, hlen, hlow, hmid, hhigh⟩ :=
        ih (i + 1) (dst.set i src[i]) (by omega) (by omega) (by simpa using hdst)
      refine ⟨d, ?_, by simpa using hlen, ?_, ?_, ?_⟩
      · simp only [push_back_copy, hlt, if_true, hsrc, hid, hstep, hd]
      · intro j hj
        rw [hlow j (by omega), List.getElem?_set_ne (by omega)]
      · intro j h1 h2
        by_cases hji : j = i
        · subst hji
          rw [hlow j (by omega), List.getElem?_set_self hid, hsrc]
        · exact hmid j (by omega) h2
      · intro j hj
        rw [hhigh j hj, List.getElem?_set_ne (by omega)]
    · have hieq : i = size := by omega
      subst hieq
      refine ⟨dst, by simp [push_back_copy], rfl, fun _ _ => rfl, ?_, fun _ _ => rfl⟩
      intro j h1 h2
      omega

theorem new_capacity_fits {c : Nat} (h : c * 2 * sizeof_int < SIZE_MOD) :
    new_capacity c = (if c = 0 then 1 else 2 * c) ∧
    (new_capacity c * sizeof_int) % SIZE_MOD / sizeof_int = new_capacity c ∧
    c < new_capacity c ∧ new_capacity c < SIZE_MOD := by
  unfold new_capacity
  unfold sizeof_int SIZE_MOD at *
  by_cases hc : c = 0
  · subst hc
    simp
  · simp only [hc, if_false]
    have h1 : c * 2 % 2 ^ 64 = c * 2 := Nat.mod_eq_of_lt (by omega)
    rw [h1]
    have h2 : c * 2 * 4 % 2 ^ 64 = c * 2 * 4 := Nat.mod_eq_of_lt h
    rw [h2]
    refine ⟨by omega, by omega, by omega, by omega⟩

/-- Result of `IntVector_push_back` on a coherent container that can grow. -/
theorem push_back_spec (v : IntVector) (value : Int) (hv : Coherent v) (hg : FitsGrowth v) :
    ∃ w, IntVector_push_back v value = some w ∧ Coherent w ∧
      w.size = v.size + 1 ∧
      w.capacity = (if v.size = v.capacity then new_capacity v.capacity else v.capacity) ∧
      w.data[v.size]? = some value ∧
      (∀ i, i < v.size → w.data[i]? = v.data[i]?) := by
  obtain ⟨hle, hlen, hcap⟩ := hv
  by_cases hfull : v.size = v.capacity
  · have hfit : v.capacity * 2 * sizeof_int < SIZE_MOD := by
      rcases hg with h | h
      · omega
      · exact h
    obtain ⟨_, hslots, hgt, hnc⟩ := new_capacity_fits hfit
    have hmalloc : (malloc ((new_capacity v.capacity * sizeof_int) % SIZE_MOD)).length =
        new_capacity v.capacity := by
      simp [malloc, hslots]
    obtain ⟨d, hd, hdlen, -, hmid, -⟩ :=
      push_back_copy_spec v.data v.size (by omega) (by omega) v.size 0
        (malloc ((new_capacity v.capacity * sizeof_int) % SIZE_MOD)) (Nat.zero_le _) (by omega)
        (by omega)
    have hdl : d.length = new_capacity v.capacity := by rw [hdlen, hmalloc]
    have hgrow : push_back_grow v = some { v with data := d, capacity := new_capacity v.capacity } := by
      simp only [push_back_grow, hfull, if_true]
      rw [hfull] at hd
      simp only [hd]
    have hstep : (v.size + 1) % SIZE_MOD = v.size + 1 := size_mod_of_lt (by omega)
    refine ⟨{ size := v.size + 1, capacity := new_capacity v.capacity, data := d.set v.size value },
      ?_, ⟨?_, ?_, hnc⟩, rfl, ?_, ?_, ?_⟩
    · simp only [IntVector_push_back, hgrow, push_back_store, hstep]
      rw [if_pos (by omega)]
    · show v.size + 1 ≤ new_capacity v.capacity
      omega
    · simp [hdl]
    · simp [hfull]
    · exact List.getElem?_set_self (by omega)
    · intro i hi
      show (d.set v.size value)[i]? = v.data[i]?
      rw [List.getElem?_set_ne (by omega)]
      exact hmid i (Nat.zero_le _) hi
  · have hlt : v.size < v.capacity := lt_of_le_of_ne hle hfull
    have hstep : (v.size + 1) % SIZE_MOD = v.size + 1 := size_mod_of_lt (by omega)
    refine ⟨{ size := v.size + 1, capacity := v.capacity, data := v.data.set v.size value },
      ?_, ⟨?_, ?_, hcap⟩, rfl, ?_, ?_, ?_⟩
    · simp only [IntVector_push_back, push_back_grow, hfull, if_false, push_back_store, hstep]
      rw [if_pos (by omega)]
    · show v.size + 1 ≤ v.capacity
      omega
    · simp [hlen]
    · simp [hfull]
    · exact List.getElem?_set_self (by omega)
    · intro i hi
      show (v.data.set v.size value)[i]? = v.data[i]?
      rw [List.getElem?_set_ne (by omega)]

theorem push_back_copy_length (src : List Int) (size : Nat) :
    ∀ fuel i dst d, push_back_copy src size fuel i dst = some d → d.length = dst.length := by
  intro fuel
  induction fuel with
  | zero =>
    intro i dst d h
    by_cases hlt : i < size
    · simp [push_back_copy, hlt] at h
    · simp only [push_back_copy, hlt, if_false, Option.some.injEq] at h
      rw [← h]
  | succ fuel ih =>
    intro i dst d h
    by_cases hlt : i < size
    · cases hsrc : src[i]? with
      | none => simp [push_back_copy, hlt, hsrc] at h
      | some x =>
        by_cases hid : i < dst.length
        · simp only [push_back_copy, hlt, if_true, hsrc, hid] at h
          have := ih _ _ _ h
          simpa using this
        · simp [push_back_copy, hlt, hsrc, hid] at h
    · simp only [push_back_copy, hlt, if_false, Option.some.injEq] at h
      rw [← h]

theorem malloc_length (bytes : Nat) : (malloc bytes).length = bytes / sizeof_int := by
  simp [malloc]

/-- Number of slots of the buffer that a full container without room to grow
allocates: not more than it already holds. -/
theorem grown_slots_le {c : Nat} (hc : c < SIZE_MOD) (h : ¬ c * 2 * sizeof_int < SIZE_MOD) :
    (new_capacity c * sizeof_int) % SIZE_MOD / sizeof_int ≤ c := by
  unfold new_capacity
  unfold sizeof_int SIZE_MOD at *
  have hc0 : c ≠ 0 := by omega
  simp only [hc0, if_false]
  omega

/-- On a coherent container that cannot grow, `IntVector_push_back` writes
outside the buffer it allocates. -/
theorem push_back_none_of_not_fits (v : IntVector) (value : Int) (hv : Coherent v)
    (hg : ¬ FitsGrowth v) : IntVector_push_back v value = none := by
  obtain ⟨hle, hlen, hcap⟩ := hv
  have hfull : v.size = v.capacity := by
    by_contra hne
    exact hg (Or.inl (lt_of_le_of_ne hle hne))
  have hnofit : ¬ v.capacity * 2 * sizeof_int < SIZE_MOD := fun h => hg (Or.inr h)
  have hslots := grown_slots_le hcap hnofit
  simp only [IntVector_push_back, push_back_grow, hfull, if_true]
  cases hcopy : push_back_copy v.data v.capacity v.capacity 0
      (malloc ((new_capacity v.capacity * sizeof_int) % SIZE_MOD)) with
  | none => rfl
  | some d =>
    have hd := push_back_copy_length _ _ _ _ _ _ hcopy
    rw [malloc_length] at hd
    simp only [push_back_store]
    rw [if_neg (by show ¬ v.capacity < d.length; omega)]

/-- In the model a call of `IntVector_push_back` that returns on a coherent
container found a free slot or a doubled capacity that fits a `size_t`. -/
theorem push_back_fits (v w : IntVector) (value : Int) (hv : Coherent v)
    (h : IntVector_push_back v value = some w) : FitsGrowth v := by
  by_contra hg
  rw [push_back_none_of_not_fits v value hv hg] at h
  exact Option.noConfusion h

theorem push_back_coherent (v w : IntVector) (value : Int) (hv : Coherent v)
    (h : IntVector_push_back v value = some w) : Coherent w := by
  have hg := push_back_fits v w value hv h
  obtain ⟨w2, hw2, hwf, _⟩ := push_back_spec v value hv hg
  rw [h] at hw2
  cases hw2
  exact hwf

/-- Whenever `IntVector_push_back` returns on a container with
`size <= capacity`, the returned container has `size <= capacity`. -/
theorem push_back_size_le_capacity (v w : IntVector) (value : Int)
    (hle : v.size ≤ v.capacity) (h : IntVector_push_back v value = some w) :
    w.size ≤ w.capacity := by
  by_cases hfull : v.size = v.capacity
  · simp only [IntVector_push_back, push_back_grow, hfull, if_true] at h
    cases hcopy : push_back_copy v.data v.capacity v.capacity 0
        (malloc ((new_capacity v.capacity * sizeof_int) % SIZE_MOD)) with
    | none => rw [hcopy] at h; exact Option.noConfusion h
    | some d =>
      rw [hcopy] at h
      have hd := push_back_copy_length _ _ _ _ _ _ hcopy
      rw [malloc_length] at hd
      simp only [push_back_store] at h
      by_cases hin : v.capacity < d.length
      · rw [if_pos hin] at h
        cases h
        show (v.capacity + 1) % SIZE_MOD ≤ new_capacity v.capacity
        have h1 : (v.capacity + 1) % SIZE_MOD ≤ v.capacity + 1 := Nat.mod_le _ _
        have h2 : (new_capacity v.capacity * sizeof_int) % SIZE_MOD / sizeof_int ≤
            new_capacity v.capacity := by
          unfold sizeof_int
          have := Nat.mod_le (new_capacity v.capacity * 4) SIZE_MOD
          omega
        omega
      · rw [if_neg hin] at h
        exact Option.noConfusion h
  · simp only [IntVector_push_back, push_back_grow, hfull, if_false, push_back_store] at h
    by_cases hin : v.size < v.data.length
    · rw [if_pos hin] at h
      cases h
      show (v.size + 1) % SIZE_MOD ≤ v.capacity
      have h1 : (v.size + 1) % SIZE_MOD ≤ v.size + 1 := Nat.mod_le _ _
      omega
    · rw [if_neg hin] at h
      exact Option.noConfusion h

theorem wellFormed_coherent {v : IntVector} (h : WellFormed v) : Coherent v ∧ FitsGrowth v := by
  obtain ⟨h1, h2, h3⟩ := h
  unfold Holdable PTRDIFF_MAX sizeof_int at h3
  refine ⟨⟨h1, h2, ?_⟩, Or.inr ?_⟩
  · unfold SIZE_MOD
    omega
  · unfold SIZE_MOD sizeof_int
    omega

theorem push_back_result (v w : IntVector) (value : Int) (hv : Coherent v)
    (h : IntVector_push_back v value = some w) :
    Coherent w ∧ w.size = v.size + 1 ∧
      w.capacity = (if v.size = v.capacity then new_capacity v.capacity else v.capacity) ∧
      FitsGrowth v := by
  have hg := push_back_fits v w value hv h
  obtain ⟨w2, hw2, hwf, hsize, hcap, _, _⟩ := push_back_spec v value hv hg
  rw [h] at hw2
  cases hw2
  exact ⟨hwf, hsize, hcap, hg⟩

/-- C5: on every well-formed container and for every value, one call of
`IntVector_push_back` returns a container whose size is the old size plus 1,
which holds the value at the old size index and the old element at every index
below the old size, whether or not the call reallocates. -/
theorem IntVector_push_back_frame (v : IntVector) (value : Int) (hv : WellFormed v) :
    ∃ w, IntVector_push_back v value = some w ∧ w.size = v.size + 1 ∧
      w.data[v.size]? = some value ∧ (∀ i, i < v.size → w.data[i]? = v.data[i]?) := by
  obtain ⟨hc, hg⟩ := wellFormed_coherent hv
  obtain ⟨w, hw, _, hsize, _, hat, hold⟩ := push_back_spec v value hc hg
  exact ⟨w, hw, hsize, hat, hold⟩

/-- Witness of C5 on the full container `[3, 1]`: the call reallocates. -/
theorem IntVector_push_back_frame_witness :
    WellFormed ⟨2, 2, [3, 1]⟩ ∧
    ∃ w, IntVector_push_back ⟨2, 2, [3, 1]⟩ 4 = some w ∧ w.size = 2 + 1 ∧
      w.data[2]? = some 4 ∧ (∀ i, i < 2 → w.data[i]? = ([3, 1] : List Int)[i]?) :=
  ⟨by decide, IntVector_push_back_frame ⟨2, 2, [3, 1]⟩ 4 (by decide)⟩

/-- C6: on every well-formed container `IntVector_push_back` returns a
container whose capacity is, when `size == capacity` held before the call, `1`
if the old capacity is `0` and twice the old capacity otherwise, and is the
old capacity when `size < capacity` held. -/
theorem IntVector_push_back_capacity (v : IntVector) (value : Int) (hv : WellFormed v) :
    ∃ w, IntVector_push_back v value = some w ∧
      (v.size = v.capacity → w.capacity = if v.capacity = 0 then 1 else 2 * v.capacity) ∧
      (v.size < v.capacity → w.capacity = v.capacity) := by
  obtain ⟨hc, hg⟩ := wellFormed_coherent hv
  obtain ⟨w, hw, _, _, hcap, _, _⟩ := push_back_spec v value hc hg
  refine ⟨w, hw, ?_, ?_⟩
  · intro hfull
    have hfit : v.capacity * 2 * sizeof_int < SIZE_MOD := by
      rcases hg with h | h
      · omega
      · exact h
    rw [hcap, if_pos hfull]
    exact (new_capacity_fits hfit).1
  · intro hlt
    rw [hcap, if_neg (by omega)]

/-- Witness of C6 on the full container `[3, 1]`: the capacity doubles. -/
theorem IntVector_push_back_capacity_witness :
    WellFormed ⟨2, 2, [3, 1]⟩ ∧
    ∃ w, IntVector_push_back ⟨2, 2, [3, 1]⟩ 4 = some w ∧
      ((2 : Nat) = 2 → w.capacity = if (2 : Nat) = 0 then 1 else 2 * 2) ∧
      ((2 : Nat) < 2 → w.capacity = 2) :=
  ⟨by decide, IntVector_push_back_capacity ⟨2, 2, [3, 1]⟩ 4 (by decide)⟩

/-- C8: on every well-formed container and for every value, the capacity of
the container that `IntVector_push_back` returns is greater than or equal to
the capacity before the call, the doubling being computed modulo `2 ^ 64`. -/
theorem IntVector_push_back_capacity_mono (v : IntVector) (value : Int) (hv : WellFormed v) :
    ∃ w, IntVector_push_back v value = some w ∧ v.capacity ≤ w.capacity := by
  obtain ⟨hc, hg⟩ := wellFormed_coherent hv
  obtain ⟨w, hw, hwf, hsize, hcap, _, _⟩ := push_back_spec v value hc hg
  refine ⟨w, hw, ?_⟩
  by_cases hfull : v.size = v.capacity
  · have := hwf.1
    omega
  · rw [hcap, if_neg hfull]

/-- Witness of C8 on the full container `[3, 1]`. -/
theorem IntVector_push_back_capacity_mono_witness :
    WellFormed ⟨2, 2, [3, 1]⟩ ∧
    ∃ w, IntVector_push_back ⟨2, 2, [3, 1]⟩ 4 = some w ∧ 2 ≤ w.capacity :=
  ⟨by decide, IntVector_push_back_capacity_mono ⟨2, 2, [3, 1]⟩ 4 (by decide)⟩

/-! ## The invariant `size <= capacity` -/

theorem sort_some_fields (v w : IntVector) (h : IntVector_sort v = some w) :
    w.size = v.size ∧ w.capacity = v.capacity := by
  unfold IntVector_sort at h
  cases hq : qsort v.data v.size compare_ints with
  | none => rw [hq] at h; exact Option.noConfusion h
  | some d =>
    rw [hq] at h
    cases h
    exact ⟨rfl, rfl⟩

theorem sort_defined (v : IntVector) (hv : Coherent v) : ∃ w, IntVector_sort v = some w :=
  ⟨_, IntVector_sort_eq v (by have := hv.1; have := hv.2.1; omega)⟩

/-- C7: `size <= capacity` holds for the result of `IntVector_new`; each of
`IntVector_push_back`, `IntVector_sort` and `IntVector_free`, applied to a
container satisfying it, yields a container satisfying it; hence it holds in
every state reachable from `IntVector_new`.  On a well-formed container each
of the three does yield a container. -/
theorem size_le_capacity_invariant :
    IntVector_new.size ≤ IntVector_new.capacity ∧
    (∀ v w value, v.size ≤ v.capacity → IntVector_push_back v value = some w →
      w.size ≤ w.capacity) ∧
    (∀ v w, v.size ≤ v.capacity → IntVector_sort v = some w → w.size ≤ w.capacity) ∧
    (∀ v, v.size ≤ v.capacity → (IntVector_free v).size ≤ (IntVector_free v).capacity) ∧
    (∀ v, Reachable v → v.size ≤ v.capacity) ∧
    (∀ v value, WellFormed v →
      ∃ w, IntVector_push_back v value = some w ∧ w.size ≤ w.capacity) ∧
    (∀ v, WellFormed v → ∃ w, IntVector_sort v = some w ∧ w.size ≤ w.capacity) := by
  have hpush : ∀ v w value, v.size ≤ v.capacity → IntVector_push_back v value = some w →
      w.size ≤ w.capacity := fun v w value => push_back_size_le_capacity v w value
  have hsort : ∀ v w, v.size ≤ v.capacity → IntVector_sort v = some w →
      w.size ≤ w.capacity := by
    intro v w hle h
    obtain ⟨h1, h2⟩ := sort_some_fields v w h
    omega
  refine ⟨le_refl _, hpush, hsort, fun _ _ => le_refl _, ?_, ?_, ?_⟩
  · intro v hr
    induction hr with
    | new => exact le_refl _
    | push_back value _ h ih => exact hpush _ _ value ih h
    | sort _ h ih => exact hsort _ _ ih h
    | free _ _ => exact le_refl _
  · intro v value hv
    obtain ⟨hc, hg⟩ := wellFormed_coherent hv
    obtain ⟨w, hw, _⟩ := push_back_spec v value hc hg
    exact ⟨w, hw, hpush v w value hv.1 hw⟩
  · intro v hv
    obtain ⟨w, hw⟩ := sort_defined v (wellFormed_coherent hv).1
    exact ⟨w, hw, hsort v w hv.1 hw⟩

/-- Witness of C7: the state reached by appending `3, 1, 4, 1` and sorting. -/
theorem size_le_capacity_invariant_witness :
    Reachable ⟨4, 4, [1, 1, 3, 4]⟩ ∧ (4 : Nat) ≤ 4 := by
  have h1 : Reachable ⟨1, 1, [3]⟩ := Reachable.push_back 3 Reachable.new (by decide)
  have h2 : Reachable ⟨2, 2, [3, 1]⟩ := Reachable.push_back 1 h1 (by decide)
  have h3 : Reachable (IntVector.mk 3 4 (List.set [3, 1, 0, 0] 2 4)) :=
    Reachable.push_back 4 h2 (by decide)
  have h4 : Reachable ⟨4, 4, [3, 1, 4, 1]⟩ := Reachable.push_back 1 h3 (by decide)
  have h5 : Reachable ⟨4, 4, [1, 1, 3, 4]⟩ := Reachable.sort h4 (by decide)
  exact ⟨h5, size_le_capacity_invariant.2.2.2.2.1 _ h5⟩

/-! ## Sequences of appends -/

theorem push_back_elems (v w : IntVector) (value : Int) (hv : Coherent v)
    (h : IntVector_push_back v value = some w) : w.elems = v.elems ++ [value] := by
  have hg := push_back_fits v w value hv h
  obtain ⟨w2, hw2, hwf, hsize, _, hat, hold⟩ := push_back_spec v value hv hg
  rw [h] at hw2
  cases hw2
  have hvlen : v.size ≤ v.data.length := by have := hv.1; have := hv.2.1; omega
  apply List.ext_getElem?
  intro i
  simp only [IntVector.elems, hsize]
  rcases Nat.lt_trichotomy i v.size with hi | hi | hi
  · rw [List.getElem?_take_of_lt (by omega), hold i hi,
      List.getElem?_append_left (by simp [List.length_take]; omega),
      List.getElem?_take_of_lt hi]
  · subst hi
    rw [List.getElem?_take_of_lt (by omega), hat,
      List.getElem?_append_right (by simp [List.length_take])]
    simp [List.length_take, Nat.min_eq_left hvlen]
  · rw [List.getElem?_eq_none (by simp [List.length_take]; omega),
      List.getElem?_eq_none (by simp [List.length_take]; omega)]

theorem push_back_powTwo (v w : IntVector) (value : Int) (hv : Coherent v)
    (hp : PowTwoCapacity v) (h : IntVector_push_back v value = some w) : PowTwoCapacity w := by
  have hg := push_back_fits v w value hv h
  obtain ⟨w2, hw2, _, hsize, hcap, _, _⟩ := push_back_spec v value hv hg
  rw [h] at hw2
  cases hw2
  right
  by_cases hfull : v.size = v.capacity
  · have hfit : v.capacity * 2 * sizeof_int < SIZE_MOD := by
      rcases hg with h1 | h1
      · omega
      · exact h1
    rw [if_pos hfull, (new_capacity_fits hfit).1] at hcap
    rcases hp with ⟨_, h0⟩ | ⟨k, hk, _⟩
    · refine ⟨0, ?_, ?_⟩
      · rw [hcap, if_pos h0]
        rfl
      · rw [hcap, if_pos h0]
        omega
    · have hne : v.capacity ≠ 0 := by
        rw [hk]
        exact Nat.pos_iff_ne_zero.mp (Nat.pow_pos (by decide))
      refine ⟨k + 1, ?_, ?_⟩
      · rw [hcap, if_neg hne, hk, pow_succ]
        omega
      · rw [hcap, if_neg hne]
        omega
  · rw [if_neg hfull] at hcap
    have hle := hv.1
    rcases hp with ⟨h0, h1⟩ | ⟨k, hk, hlt⟩
    · omega
    · exact ⟨k, by rw [hcap, hk], by omega⟩

/-- A run of appends whose buffers a program can hold returns, and ends in a
well-formed container. -/
theorem push_back_all_spec :
    ∀ (xs : List Int) (v : IntVector), Coherent v → PowTwoCapacity v →
      Holdable (2 * (v.size + xs.length)) →
      ∃ w, push_back_all v xs = some w ∧ Coherent w ∧ PowTwoCapacity w ∧
        w.size = v.size + xs.length ∧ w.elems = v.elems ++ xs := by
  intro xs
  induction xs with
  | nil =>
    intro v hv hp _
    exact ⟨v, rfl, hv, hp, rfl, by simp⟩
  | cons x xs ih =>
    intro v hv hp hlen
    simp only [List.length_cons] at hlen
    have hlen2 := hlen
    unfold Holdable PTRDIFF_MAX sizeof_int at hlen2
    have hg : FitsGrowth v := by
      by_cases hfull : v.size = v.capacity
      · right
        unfold sizeof_int SIZE_MOD
        omega
      · left
        exact lt_of_le_of_ne hv.1 hfull
    obtain ⟨u, hu, hwf, hsize, _⟩ := push_back_spec v x hv hg
    have hlen3 : Holdable (2 * (u.size + xs.length)) := by
      rw [hsize]
      have : v.size + 1 + xs.length = v.size + (xs.length + 1) := by omega
      rw [this]
      exact hlen
    obtain ⟨w, hw, hwwf, hwp, hwsize, hwelems⟩ :=
      ih u hwf (push_back_powTwo v u x hv hp hu) hlen3
    refine ⟨w, ?_, hwwf, hwp, ?_, ?_⟩
    · simp only [push_back_all, hu, hw]
    · rw [hwsize, hsize, List.length_cons]
      omega
    · rw [hwelems, push_back_elems v u x hv hu]
      simp

/-- Every run of appends that returns ends in a container that holds the old
elements followed by the appended values. -/
theorem push_back_all_run :
    ∀ (xs : List Int) (v w : IntVector), Coherent v → PowTwoCapacity v →
      push_back_all v xs = some w →
      Coherent w ∧ PowTwoCapacity w ∧ w.size = v.size + xs.length ∧
        w.elems = v.elems ++ xs := by
  intro xs
  induction xs with
  | nil =>
    intro v w hv hp h
    simp only [push_back_all, Option.some.injEq] at h
    subst h
    exact ⟨hv, hp, rfl, by simp⟩
  | cons x xs ih =>
    intro v w hv hp h
    simp only [push_back_all] at h
    cases hu : IntVector_push_back v x with
    | none =>
      rw [hu] at h
      exact Option.noConfusion h
    | some u =>
      rw [hu] at h
      obtain ⟨hcu, hsize, _, _⟩ := push_back_result v u x hv hu
      obtain ⟨hcw, hpw, hwsize, hwelems⟩ :=
        ih u w hcu (push_back_powTwo v u x hv hp hu) h
      refine ⟨hcw, hpw, ?_, ?_⟩
      · rw [hwsize, hsize, List.length_cons]
        omega
      · rw [hwelems, push_back_elems v u x hv hu]
        simp

theorem new_coherent : Coherent IntVector_new := by decide

theorem new_powTwo : PowTwoCapacity IntVector_new := Or.inl ⟨rfl, rfl⟩

theorem elems_getElem? (w : IntVector) (xs : List Int) (hsize : w.size = xs.length)
    (helems : w.elems = xs) : ∀ i, i < xs.length → w.data[i]? = xs[i]? := by
  intro i hi
  rw [← helems]
  simp only [IntVector.elems]
  rw [List.getElem?_take_of_lt (by omega)]

theorem wellFormed_of_policy (w : IntVector) (n : Nat) (hc : Coherent w)
    (hp : PowTwoCapacity w) (hsize : w.size = n) (hn : Holdable (2 * n)) : WellFormed w := by
  refine ⟨hc.1, hc.2.1, ?_⟩
  unfold Holdable PTRDIFF_MAX sizeof_int at *
  rcases hp with ⟨_, h0⟩ | ⟨k, _, hlt⟩
  · omega
  · omega

/-- C4: for every finite sequence of integers, the calls of
`IntVector_push_back` with its values, in order, starting from
`IntVector_new`, yield a container whose size is the length of the sequence
and whose element at every index `i` below that length is the `i`-th value.
The calls do return when the program can hold a buffer of twice as many slots
as there are values, which is more than the calls ever ask for. -/
theorem push_back_all_from_new (xs : List Int) :
    (∀ w, push_back_all IntVector_new xs = some w →
      w.size = xs.length ∧ (∀ i, i < xs.length → w.data[i]? = xs[i]?)) ∧
    (Holdable (2 * xs.length) →
      ∃ w, push_back_all IntVector_new xs = some w ∧ WellFormed w) := by
  constructor
  · intro w hw
    obtain ⟨_, _, hsize, helems⟩ :=
      push_back_all_run xs IntVector_new w new_coherent new_powTwo hw
    have hsz : w.size = xs.length := by
      rw [hsize, show IntVector_new.size = 0 from rfl, Nat.zero_add]
    have he : w.elems = xs := by
      rw [helems, show IntVector_new.elems = [] from rfl, List.nil_append]
    exact ⟨hsz, elems_getElem? w xs hsz he⟩
  · intro hn
    obtain ⟨w, hw, hc, hp, hsize, _⟩ :=
      push_back_all_spec xs IntVector_new new_coherent new_powTwo
        (by rw [show IntVector_new.size = 0 from rfl, Nat.zero_add]; exact hn)
    have hsz : w.size = xs.length := by
      rw [hsize, show IntVector_new.size = 0 from rfl, Nat.zero_add]
    exact ⟨w, hw, wellFormed_of_policy w xs.length hc hp hsz hn⟩

/-- Witness of C4 on the sequence `3, 1, 4, 1`. -/
theorem push_back_all_from_new_witness :
    Holdable (2 * ([3, 1, 4, 1] : List Int).length) ∧
    push_back_all IntVector_new [3, 1, 4, 1] = some ⟨4, 4, [3, 1, 4, 1]⟩ ∧
    (IntVector.size ⟨4, 4, [3, 1, 4, 1]⟩ = ([3, 1, 4, 1] : List Int).length ∧
      (∀ i, i < ([3, 1, 4, 1] : List Int).length →
        (IntVector.data ⟨4, 4, [3, 1, 4, 1]⟩)[i]? = ([3, 1, 4, 1] : List Int)[i]?)) ∧
    (∃ w, push_back_all IntVector_new [3, 1, 4, 1] = some w ∧ WellFormed w) :=
  ⟨by decide, by decide,
    (push_back_all_from_new [3, 1, 4, 1]).1 ⟨4, 4, [3, 1, 4, 1]⟩ (by decide),
    (push_back_all_from_new [3, 1, 4, 1]).2 (by decide)⟩

/-! ## Binary search against linear search -/

theorem mem_elems_iff (v : IntVector) (value : Int) :
    value ∈ v.elems ↔ ∃ k, k < v.size ∧ v.data[k]? = some value := by
  simp only [IntVector.elems, List.mem_iff_getElem?, List.getElem?_take]
  constructor
  · rintro ⟨k, hk⟩
    by_cases hlt : k < v.size
    · rw [if_pos hlt] at hk
      exact ⟨k, hlt, hk⟩
    · rw [if_neg hlt] at hk
      exact Option.noConfusion hk
  · rintro ⟨k, hlt, hk⟩
    exact ⟨k, by rw [if_pos hlt]; exact hk⟩

theorem getD_of_getElem? {l : List Int} {i : Nat} {x : Int} (h : l[i]? = some x) :
    l.getD i 0 = x := by
  simp [List.getD_eq_getElem?_getD, h]

theorem search_sorted_result (v : IntVector) (value : Int) (hv : HoldsElems v)
    (hs : NonDecreasing v.elems) :
    ∃ r, IntVector_search_sorted v value = some r ∧ r ≤ v.size ∧
      (∀ i, i < r → v.data.getD i 0 < value) ∧
      (∀ i, r ≤ i → i < v.size → value ≤ v.data.getD i 0) :=
  search_sorted_loop_spec v value hv (data_mono hv hs) v.size 0 v.size (Nat.zero_le _)
    (le_refl _) (by omega) (fun i hi => absurd hi (Nat.not_lt_zero i))
    (fun i h1 h2 => absurd h2 (not_lt.mpr h1))

theorem search_result (v : IntVector) (value : Int) (hv : HoldsElems v) :
    ∃ r, IntVector_search v value = some r ∧ r ≤ v.size ∧
      (∀ j, j < r → v.data[j]? ≠ some value) ∧
      (r < v.size → v.data[r]? = some value) :=
  search_loop_spec v value hv v.size 0 (Nat.zero_le _) (by omega)
    (fun j hj => absurd hj (Nat.not_lt_zero j))

/-- Position found by the binary search when the value occurs: the first
index that holds it. -/
theorem search_sorted_first (v : IntVector) (value : Int) (hv : HoldsElems v)
    (hs : NonDecreasing v.elems) (k : Nat) (hk : k < v.size) (hkv : v.data[k]? = some value) :
    ∃ r, IntVector_search_sorted v value = some r ∧ r ≤ k ∧ v.data[r]? = some value ∧
      (∀ j, j < r → v.data[j]? ≠ some value) := by
  obtain ⟨r, hr, _, hlow, hhigh⟩ := search_sorted_result v value hv hs
  have hkd : v.data.getD k 0 = value := getD_of_getElem? hkv
  have hrk : r ≤ k := by
    by_contra hlt
    have := hlow k (by omega)
    omega
  have h1 : value ≤ v.data.getD r 0 := hhigh r (le_refl _) (by omega)
  have h2 : v.data.getD r 0 ≤ v.data.getD k 0 := data_mono hv hs r k hrk hk
  have hrd : v.data.getD r 0 = value := by omega
  refine ⟨r, hr, hrk, ?_, ?_⟩
  · rw [getElem?_eq_some_getD (by have := hv.1; omega), hrd]
  · intro j hj hjv
    have := hlow j hj
    rw [getD_of_getElem? hjv] at this
    exact lt_irrefl _ this

/-- C11: on every container whose elements are non-decreasing and every value
that occurs among them, `IntVector_search_sorted` returns the index of the
first occurrence of the value, the same index that `IntVector_search`
returns. -/
theorem IntVector_search_sorted_first_occurrence (v : IntVector) (value : Int)
    (hv : HoldsElems v) (hs : NonDecreasing v.elems) (hocc : value ∈ v.elems) :
    ∃ r, IntVector_search_sorted v value = some r ∧ IntVector_search v value = some r ∧
      r < v.size ∧ v.data[r]? = some value ∧ (∀ j, j < r → v.data[j]? ≠ some value) := by
  obtain ⟨k, hk, hkv⟩ := (mem_elems_iff v value).mp hocc
  obtain ⟨r, hr, hrk, hrv, hfirst⟩ := search_sorted_first v value hv hs k hk hkv
  obtain ⟨r2, hr2, _, hbefore, hat⟩ := search_result v value hv
  have h1 : r2 ≤ r := by
    by_contra hlt
    exact hbefore r (by omega) hrv
  have h2 : r ≤ r2 := by
    by_contra hlt
    exact hfirst r2 (by omega) (hat (by omega))
  have heq : r2 = r := by omega
  subst heq
  exact ⟨r2, hr, hr2, by omega, hrv, hfirst⟩

/-- Witness of C11 on the sorted container `[1, 1, 3, 4]`, searched for `1`. -/
theorem IntVector_search_sorted_first_occurrence_witness :
    HoldsElems ⟨4, 4, [1, 1, 3, 4]⟩ ∧ NonDecreasing (IntVector.elems ⟨4, 4, [1, 1, 3, 4]⟩) ∧
    (1 : Int) ∈ IntVector.elems ⟨4, 4, [1, 1, 3, 4]⟩ ∧
    ∃ r, IntVector_search_sorted ⟨4, 4, [1, 1, 3, 4]⟩ 1 = some r ∧
      IntVector_search ⟨4, 4, [1, 1, 3, 4]⟩ 1 = some r ∧
      r < 4 ∧ ([1, 1, 3, 4] : List Int)[r]? = some 1 ∧
      (∀ j, j < r → ([1, 1, 3, 4] : List Int)[j]? ≠ some 1) :=
  ⟨by decide, by decide, by decide,
    IntVector_search_sorted_first_occurrence ⟨4, 4, [1, 1, 3, 4]⟩ 1 (by decide) (by decide)
      (by decide)⟩

/-- C18: on every container whose elements are non-decreasing, a value occurs
among the elements exactly when the index `r` that `IntVector_search_sorted`
returns satisfies `r < size` and `data[r] == value`; when the value is absent,
`r` is `size` or the index of an element strictly greater than the value. -/
theorem IntVector_search_sorted_membership (v : IntVector) (value : Int)
    (hv : HoldsElems v) (hs : NonDecreasing v.elems) :
    ∃ r, IntVector_search_sorted v value = some r ∧
      (value ∈ v.elems ↔ (r < v.size ∧ v.data[r]? = some value)) ∧
      (value ∉ v.elems → r = v.size ∨ (r < v.size ∧ ∃ x, v.data[r]? = some x ∧ value < x)) := by
  obtain ⟨r, hr, hle, _, hhigh⟩ := search_sorted_result v value hv hs
  have hiff : value ∈ v.elems ↔ (r < v.size ∧ v.data[r]? = some value) := by
    constructor
    · intro hocc
      obtain ⟨k, hk, hkv⟩ := (mem_elems_iff v value).mp hocc
      obtain ⟨r2, hr2, hrk, hrv, _⟩ := search_sorted_first v value hv hs k hk hkv
      rw [hr] at hr2
      cases hr2
      exact ⟨by omega, hrv⟩
    · rintro ⟨hlt, hrv⟩
      exact (mem_elems_iff v value).mpr ⟨r, hlt, hrv⟩
  refine ⟨r, hr, hiff, ?_⟩
  intro habs
  by_cases hlt : r < v.size
  · right
    have hget := getElem?_eq_some_getD (l := v.data) (i := r) (by have := hv.1; omega)
    refine ⟨hlt, _, hget, ?_⟩
    have h1 := hhigh r (le_refl _) hlt
    have hne : v.data.getD r 0 ≠ value := by
      intro heq
      rw [heq] at hget
      exact habs (hiff.mpr ⟨hlt, hget⟩)
    omega
  · left
    omega

/-- Witness of C18 on the sorted container `[1, 1, 3, 4]`, searched for `2`. -/
theorem IntVector_search_sorted_membership_witness :
    HoldsElems ⟨4, 4, [1, 1, 3, 4]⟩ ∧ NonDecreasing (IntVector.elems ⟨4, 4, [1, 1, 3, 4]⟩) ∧
    ∃ r, IntVector_search_sorted ⟨4, 4, [1, 1, 3, 4]⟩ 2 = some r ∧
      ((2 : Int) ∈ IntVector.elems ⟨4, 4, [1, 1, 3, 4]⟩ ↔
        (r < 4 ∧ ([1, 1, 3, 4] : List Int)[r]? = some 2)) ∧
      ((2 : Int) ∉ IntVector.elems ⟨4, 4, [1, 1, 3, 4]⟩ →
        r = 4 ∨ (r < 4 ∧ ∃ x, ([1, 1, 3, 4] : List Int)[r]? = some x ∧ 2 < x)) :=
  ⟨by decide, by decide,
    IntVector_search_sorted_membership ⟨4, 4, [1, 1, 3, 4]⟩ 2 (by decide) (by decide)⟩

/-! ## The scenario of the specification, release, the comparator -/

/-- C12: appending `3, 1, 4, 1` to `IntVector_new` gives size `4` and
`IntVector_search` for `1` returns `1`; after `IntVector_sort` the contents
are `[1, 1, 3, 4]`, `IntVector_search` for `1` returns `0`, and
`IntVector_search_sorted` returns `0` for `1`, `4` for `5` and `0` for `0`. -/
theorem scenario_3_1_4_1 :
    push_back_all IntVector_new [3, 1, 4, 1] = some ⟨4, 4, [3, 1, 4, 1]⟩ ∧
    IntVector_search ⟨4, 4, [3, 1, 4, 1]⟩ 1 = some 1 ∧
    IntVector_sort ⟨4, 4, [3, 1, 4, 1]⟩ = some ⟨4, 4, [1, 1, 3, 4]⟩ ∧
    IntVector.elems ⟨4, 4, [1, 1, 3, 4]⟩ = [1, 1, 3, 4] ∧
    IntVector_search ⟨4, 4, [1, 1, 3, 4]⟩ 1 = some 0 ∧
    IntVector_search_sorted ⟨4, 4, [1, 1, 3, 4]⟩ 1 = some 0 ∧
    IntVector_search_sorted ⟨4, 4, [1, 1, 3, 4]⟩ 5 = some 4 ∧
    IntVector_search_sorted ⟨4, 4, [1, 1, 3, 4]⟩ 0 = some 0 := by
  decide

/-- C13: on every container `IntVector_free` yields exactly the state that
`IntVector_new` returns: size `0`, capacity `0`, no storage. -/
theorem IntVector_free_eq_new (v : IntVector) :
    IntVector_free v = IntVector_new ∧ (IntVector_free v).size = 0 ∧
      (IntVector_free v).capacity = 0 ∧ (IntVector_free v).data = [] :=
  ⟨rfl, rfl, rfl, rfl⟩

/-- C15: `2147483647` and `-1` are values of a 32-bit `int` with
`2147483647 > -1`, yet `compare_ints 2147483647 (-1)` wraps to the negative
`-2147483648`; `-2` and `2147483647` are values with `-2 < 2147483647`, yet
`compare_ints (-2) 2147483647` wraps to the positive `2147483647`. -/
theorem compare_ints_wrong_sign :
    INT_MIN ≤ -1 ∧ (-1 : Int) < 2147483647 ∧ 2147483647 ≤ INT_MAX ∧
    compare_ints 2147483647 (-1) = -2147483648 ∧
    ¬ (compare_ints 2147483647 (-1) < 0 ↔ (2147483647 : Int) < -1) ∧
    INT_MIN ≤ -2 ∧ (-2 : Int) < 2147483647 ∧
    compare_ints (-2) 2147483647 = 2147483647 ∧
    ¬ (0 < compare_ints (-2) 2147483647 ↔ (-2 : Int) > 2147483647) := by
  decide

/-! ## Sorting without overflow -/

theorem compare_ints_exact (a b : Int) (h1 : INT_MIN ≤ a - b) (h2 : a - b ≤ INT_MAX) :
    compare_ints a b = a - b := by
  unfold compare_ints wrap_int
  unfold INT_MIN at h1
  unfold INT_MAX at h2
  omega

theorem nonDecreasing_of_chain {l : List Int} (h : List.Chain' (fun a b => a ≤ b) l) :
    NonDecreasing l := by
  intro i hi
  have hget := (List.chain'_iff_get.mp h) i hi
  have h1 : l.getD i 0 = l.get ⟨i, by omega⟩ := by
    simp [List.getD_eq_getElem?_getD, List.getElem?_eq_getElem (show i < l.length by omega)]
  have h2 : l.getD (i + 1) 0 = l.get ⟨i + 1, by omega⟩ := by
    simp [List.getD_eq_getElem?_getD, List.getElem?_eq_getElem (show i + 1 < l.length by omega)]
  rw [h1, h2]
  exact hget

theorem qsort_list_nonDecreasing (l : List Int)
    (hr : ∀ x ∈ l, ∀ y ∈ l, INT_MIN ≤ x - y ∧ x - y ≤ INT_MAX) :
    NonDecreasing (qsort_list compare_ints l) := by
  apply nonDecreasing_of_chain
  have hchain := qsort_list_chain compare_ints compare_ints_not_le l
  refine (List.Chain'.iff_mem.mp hchain).imp ?_
  rintro a b ⟨ha, hb, hab⟩
  have hperm := qsort_list_perm compare_ints l
  obtain ⟨h1, h2⟩ := hr a (hperm.mem_iff.mp ha) b (hperm.mem_iff.mp hb)
  rw [compare_ints_exact a b h1 h2] at hab
  omega

/-- C16: on every container whose elements have no pairwise difference that
overflows a 32-bit `int`, `IntVector_sort` returns a container whose elements
are non-decreasing and a permutation of the elements before the sort. -/
theorem IntVector_sort_sorts_in_range (v : IntVector) (hv : HoldsElems v)
    (hr : ∀ x ∈ v.elems, ∀ y ∈ v.elems, INT_MIN ≤ x - y ∧ x - y ≤ INT_MAX) :
    ∃ w, IntVector_sort v = some w ∧ NonDecreasing w.elems ∧ w.elems.Perm v.elems := by
  refine ⟨_, IntVector_sort_eq v hv.1, ?_, ?_⟩
  · rw [sorted_elems v hv.1]
    exact qsort_list_nonDecreasing v.elems hr
  · rw [sorted_elems v hv.1]
    exact qsort_list_perm compare_ints _

/-- Witness of C16 on a container whose elements lie in `[-2^30, 2^30)`. -/
theorem IntVector_sort_sorts_in_range_witness :
    HoldsElems ⟨4, 4, [3, -1073741824, 1073741823, 1]⟩ ∧
    (∀ x ∈ IntVector.elems ⟨4, 4, [3, -1073741824, 1073741823, 1]⟩,
      -1073741824 ≤ x ∧ x < 1073741824) ∧
    ∃ w, IntVector_sort ⟨4, 4, [3, -1073741824, 1073741823, 1]⟩ = some w ∧
      NonDecreasing w.elems ∧
      w.elems.Perm (IntVector.elems ⟨4, 4, [3, -1073741824, 1073741823, 1]⟩) :=
  ⟨by decide, by decide,
    IntVector_sort_sorts_in_range ⟨4, 4, [3, -1073741824, 1073741823, 1]⟩ (by decide)
      (by decide)⟩

/-! ## Totality of the binary search -/

theorem search_sorted_loop_total (v : IntVector) (value : Int) (hv : HoldsElems v) :
    ∀ fuel left right, left ≤ right → right ≤ v.size → right - left ≤ fuel →
      ∃ r, search_sorted_loop v value fuel left right = some r ∧ left ≤ r ∧ r ≤ right := by
  intro fuel
  induction fuel with
  | zero =>
    intro left right hlr _ hfuel
    have heq : left = right := by omega
    subst heq
    exact ⟨left, by simp [search_sorted_loop], le_refl _, le_refl _⟩
  | succ fuel ih =>
    intro left right hlr hrs hfuel
    by_cases hlt : left < right
    · have hsize := hv.2
      have hmid : (left + (right - left) / 2) % SIZE_MOD = left + (right - left) / 2 :=
        size_mod_of_lt (by omega)
      have hmsucc : (left + (right - left) / 2 + 1) % SIZE_MOD = left + (right - left) / 2 + 1 :=
        size_mod_of_lt (by omega)
      have hlen : left + (right - left) / 2 < v.data.length := by have := hv.1; omega
      have hget := getElem?_eq_some_getD hlen
      by_cases hx : v.data.getD (left + (right - left) / 2) 0 < value
      · obtain ⟨r, hr, h1, h2⟩ :=
          ih (left + (right - left) / 2 + 1) right (by omega) hrs (by omega)
        refine ⟨r, ?_, by omega, h2⟩
        simp only [search_sorted_loop, hlt, if_true, hmid, hget, hx, hmsucc, hr]
      · obtain ⟨r, hr, h1, h2⟩ :=
          ih left (left + (right - left) / 2) (by omega) (by omega) (by omega)
        refine ⟨r, ?_, h1, by omega⟩
        simp only [search_sorted_loop, hlt, if_true, hmid, hget, hx, if_false, hr]
    · have heq : left = right := by omega
      subst heq
      exact ⟨left, by simp [search_sorted_loop], le_refl _, le_refl _⟩

theorem search_sorted_steps_spec (v : IntVector) (value : Int) (hv : HoldsElems v) :
    ∀ fuel left right, left ≤ right → right ≤ v.size →
      (∀ s ∈ search_sorted_steps v value fuel left right,
        s.left < s.right ∧ s.right ≤ v.size ∧ s.middle = s.left + (s.right - s.left) / 2 ∧
        s.middle < SIZE_MOD ∧ s.middle < v.size ∧ s.right - s.left ≤ right - left) ∧
      List.Chain' (fun s t : SearchStep => t.right - t.left < s.right - s.left)
        (search_sorted_steps v value fuel left right) := by
  intro fuel
  induction fuel with
  | zero =>
    intro left right _ _
    simp [search_sorted_steps]
  | succ fuel ih =>
    intro left right hlr hrs
    by_cases hlt : left < right
    · have hsize := hv.2
      have hmid : (left + (right - left) / 2) % SIZE_MOD = left + (right - left) / 2 :=
        size_mod_of_lt (by omega)
      have hmsucc : (left + (right - left) / 2 + 1) % SIZE_MOD = left + (right - left) / 2 + 1 :=
        size_mod_of_lt (by omega)
      have hlen : left + (right - left) / 2 < v.data.length := by have := hv.1; omega
      have hget := getElem?_eq_some_getD hlen
      have hhead : ∀ (rest : List SearchStep) (l2 r2 : Nat), r2 - l2 < right - left →
          ((∀ s ∈ rest, s.left < s.right ∧ s.right ≤ v.size ∧
              s.middle = s.left + (s.right - s.left) / 2 ∧
              s.middle < SIZE_MOD ∧ s.middle < v.size ∧ s.right - s.left ≤ r2 - l2) ∧
            List.Chain' (fun s t : SearchStep => t.right - t.left < s.right - s.left) rest) →
          (∀ s ∈ ({ left := left, right := right, middle := left + (right - left) / 2 } :
                SearchStep) :: rest,
              s.left < s.right ∧ s.right ≤ v.size ∧
              s.middle = s.left + (s.right - s.left) / 2 ∧
              s.middle < SIZE_MOD ∧ s.middle < v.size ∧ s.right - s.left ≤ right - left) ∧
            List.Chain' (fun s t : SearchStep => t.right - t.left < s.right - s.left)
              (({ left := left, right := right, middle := left + (right - left) / 2 } :
                SearchStep) :: rest) := by
        intro rest l2 r2 hw hrest
        obtain ⟨hall, hchain⟩ := hrest
        constructor
        · intro s hs
          rcases List.mem_cons.mp hs with h | h
          · subst h
            exact ⟨hlt, hrs, rfl, by show left + (right - left) / 2 < SIZE_MOD; omega,
              by show left + (right - left) / 2 < v.size; omega, le_refl _⟩
          · obtain ⟨h1, h2, h3, h4, h5, h6⟩ := hall s h
            exact ⟨h1, h2, h3, h4, h5, by omega⟩
        · rw [List.chain'_cons']
          refine ⟨?_, hchain⟩
          intro t ht
          obtain ⟨_, _, _, _, _, h6⟩ := hall t (List.mem_of_mem_head? ht)
          show t.right - t.left < right - left
          omega
      by_cases hx : v.data.getD (left + (right - left) / 2) 0 < value
      · have hrec := ih (left + (right - left) / 2 + 1) right (by omega) hrs
        have := hhead _ (left + (right - left) / 2 + 1) right (by omega) hrec
        simpa only [search_sorted_steps, hlt, if_true, hmid, hget, hx, hmsucc] using this
      · have hrec := ih left (left + (right - left) / 2) (by omega) (by omega)
        have := hhead _ left (left + (right - left) / 2) (by omega) hrec
        simpa only [search_sorted_steps, hlt, if_true, hmid, hget, hx, if_false] using this
    · simp [search_sorted_steps, hlt]

/-- C17: on every container, sorted or not, `IntVector_search_sorted` returns
an index `<= size`; in every iteration of its loop `left < right <= size`, the
midpoint `left + (right - left) / 2` fits a `size_t` and the index read is
`< size`; and `right - left` strictly decreases from each iteration to the
next. -/
theorem IntVector_search_sorted_total (v : IntVector) (value : Int) (hv : HoldsElems v) :
    (∃ r, IntVector_search_sorted v value = some r ∧ r ≤ v.size) ∧
    (∀ s ∈ search_sorted_steps v value v.size 0 v.size,
      s.left < s.right ∧ s.right ≤ v.size ∧ s.middle = s.left + (s.right - s.left) / 2 ∧
      s.middle < SIZE_MOD ∧ s.middle < v.size) ∧
    List.Chain' (fun s t : SearchStep => t.right - t.left < s.right - s.left)
      (search_sorted_steps v value v.size 0 v.size) := by
  obtain ⟨r, hr, _, hle⟩ :=
    search_sorted_loop_total v value hv v.size 0 v.size (Nat.zero_le _) (le_refl _) (by omega)
  obtain ⟨hall, hchain⟩ :=
    search_sorted_steps_spec v value hv v.size 0 v.size (Nat.zero_le _) (le_refl _)
  refine ⟨⟨r, hr, hle⟩, ?_, hchain⟩
  intro s hs
  obtain ⟨h1, h2, h3, h4, h5, _⟩ := hall s hs
  exact ⟨h1, h2, h3, h4, h5⟩

/-- Witness of C17 on the unsorted container `[3, 1, 4, 1]`, searched for `1`. -/
theorem IntVector_search_sorted_total_witness :
    HoldsElems ⟨4, 4, [3, 1, 4, 1]⟩ ∧
    search_sorted_steps ⟨4, 4, [3, 1, 4, 1]⟩ 1 4 0 4 = [⟨0, 4, 2⟩, ⟨0, 2, 1⟩, ⟨0, 1, 0⟩] ∧
    ((∃ r, IntVector_search_sorted ⟨4, 4, [3, 1, 4, 1]⟩ 1 = some r ∧ r ≤ 4) ∧
    (∀ s ∈ search_sorted_steps ⟨4, 4, [3, 1, 4, 1]⟩ 1 4 0 4,
      s.left < s.right ∧ s.right ≤ 4 ∧ s.middle = s.left + (s.right - s.left) / 2 ∧
      s.middle < SIZE_MOD ∧ s.middle < 4) ∧
    List.Chain' (fun s t : SearchStep => t.right - t.left < s.right - s.left)
      (search_sorted_steps ⟨4, 4, [3, 1, 4, 1]⟩ 1 4 0 4)) :=
  ⟨by decide, by decide, IntVector_search_sorted_total ⟨4, 4, [3, 1, 4, 1]⟩ 1 (by decide)⟩

/-! ## Capacity after a sequence of appends -/

theorem sort_coherent (v w : IntVector) (hv : Coherent v) (h : IntVector_sort v = some w) :
    Coherent w ∧ w.size = v.size ∧ w.capacity = v.capacity := by
  have hle : v.size ≤ v.data.length := by have := hv.1; have := hv.2.1; omega
  rw [IntVector_sort_eq v hle] at h
  cases h
  refine ⟨⟨hv.1, ?_, hv.2.2⟩, rfl, rfl⟩
  show (qsort_list compare_ints (v.data.take v.size) ++ v.data.drop v.size).length = v.capacity
  rw [List.length_append, qsort_list_length, List.length_take, List.length_drop, hv.2.1]
  have := hv.1
  omega

theorem reachable_policy (v : IntVector) (h : Reachable v) :
    Coherent v ∧ PowTwoCapacity v := by
  induction h with
  | new => exact ⟨new_coherent, new_powTwo⟩
  | push_back value _ hp ih =>
    exact ⟨push_back_coherent _ _ value ih.1 hp, push_back_powTwo _ _ value ih.1 ih.2 hp⟩
  | sort _ hs ih =>
    obtain ⟨hwf, hsize, hcap⟩ := sort_coherent _ _ ih.1 hs
    refine ⟨hwf, ?_⟩
    unfold PowTwoCapacity at *
    rw [hsize, hcap]
    exact ih.2
  | free _ _ => exact ⟨new_coherent, new_powTwo⟩

/-- C19: for every sequence of `n >= 1` values, the capacity after the `n`
calls of `IntVector_push_back` starting from `IntVector_new` is the smallest
power of two that is `>= n`; in every reachable state the capacity is `0` or a
power of two, and is less than twice the size whenever the size is at least
`1`.  The calls do return when the program can hold a buffer of twice as many
slots as there are values. -/
theorem capacity_after_appends (xs : List Int) (h1 : 1 ≤ xs.length) :
    (∀ w, push_back_all IntVector_new xs = some w →
      ∃ k, w.capacity = 2 ^ k ∧ xs.length ≤ 2 ^ k ∧ ∀ j, xs.length ≤ 2 ^ j → 2 ^ k ≤ 2 ^ j) ∧
    (Holdable (2 * xs.length) → ∃ w, push_back_all IntVector_new xs = some w) ∧
    (∀ v, Reachable v →
      (v.capacity = 0 ∨ ∃ k, v.capacity = 2 ^ k) ∧ (1 ≤ v.size → v.capacity < 2 * v.size)) := by
  refine ⟨?_, ?_, ?_⟩
  · intro w hw
    obtain ⟨hwf, hp, hsize, _⟩ :=
      push_back_all_run xs IntVector_new w new_coherent new_powTwo hw
    have hsz : w.size = xs.length := by
      rw [hsize, show IntVector_new.size = 0 from rfl, Nat.zero_add]
    rcases hp with ⟨h0, _⟩ | ⟨k, hk, hlt⟩
    · omega
    · have hle := hwf.1
      refine ⟨k, hk, by omega, ?_⟩
      intro j hj
      have hkj : 2 ^ k < 2 ^ (j + 1) := by
        rw [pow_succ]
        omega
      have : k < j + 1 := (Nat.pow_lt_pow_iff_right (by decide : 1 < 2)).mp hkj
      exact Nat.pow_le_pow_right (by decide) (by omega)
  · intro hn
    obtain ⟨w, hw, _⟩ :=
      push_back_all_spec xs IntVector_new new_coherent new_powTwo
        (by rw [show IntVector_new.size = 0 from rfl, Nat.zero_add]; exact hn)
    exact ⟨w, hw⟩
  · intro v hr
    obtain ⟨_, hp⟩ := reachable_policy v hr
    rcases hp with ⟨h0, hc⟩ | ⟨k, hk, hlt⟩
    · exact ⟨Or.inl hc, fun h => by omega⟩
    · exact ⟨Or.inr ⟨k, hk⟩, fun _ => hlt⟩

/-- Witness of C19 on the sequence `3, 1, 4, 1, 5`: the capacity is `8`. -/
theorem capacity_after_appends_witness :
    1 ≤ ([3, 1, 4, 1, 5] : List Int).length ∧
    Holdable (2 * ([3, 1, 4, 1, 5] : List Int).length) ∧
    (∃ w, push_back_all IntVector_new [3, 1, 4, 1, 5] = some w ∧ w.capacity = 8) ∧
    (∃ w, push_back_all IntVector_new [3, 1, 4, 1, 5] = some w) ∧
    (∀ w, push_back_all IntVector_new [3, 1, 4, 1, 5] = some w →
      ∃ k, w.capacity = 2 ^ k ∧ ([3, 1, 4, 1, 5] : List Int).length ≤ 2 ^ k ∧
        ∀ j, ([3, 1, 4, 1, 5] : List Int).length ≤ 2 ^ j → 2 ^ k ≤ 2 ^ j) :=
  ⟨by decide, by decide, ⟨_, rfl, rfl⟩,
    (capacity_after_appends [3, 1, 4, 1, 5] (by decide)).2.1 (by decide),
    (capacity_after_appends [3, 1, 4, 1, 5] (by decide)).1⟩

/-! ## Cost of a sequence of appends -/

theorem push_back_copy_count_spec (src : List Int) (size : Nat) (hs : size ≤ src.length)
    (hsz : size < SIZE_MOD) :
    ∀ fuel i dst, i ≤ size → size - i ≤ fuel → size ≤ dst.length →
      push_back_copy_count src size fuel i dst = some (size - i) := by
  intro fuel
  induction fuel with
  | zero =>
    intro i dst hi hfuel _
    have hieq : i = size := by omega
    subst hieq
    simp [push_back_copy_count]
  | succ fuel ih =>
    intro i dst hi hfuel hdst
    by_cases hlt : i < size
    · have hsrc : src[i]? = some src[i] := List.getElem?_eq_getElem (by omega)
      have hid : i < dst.length := by omega
      have hstep : (i + 1) % SIZE_MOD = i + 1 := size_mod_of_lt (by omega)
      have hrec := ih (i + 1) (dst.set i src[i]) (by omega) (by omega) (by simpa using hdst)
      simp only [push_back_copy_count, hlt, if_true, hsrc, hid, hstep, hrec]
      congr 1
      omega
    · have hieq : i = size := by omega
      subst hieq
      simp [push_back_copy_count]

theorem push_back_copies_spec (v : IntVector) (hv : Coherent v) (hg : FitsGrowth v) :
    push_back_copies v = some (if v.size = v.capacity then v.size else 0) := by
  obtain ⟨hle, hlen, hcap⟩ := hv
  by_cases hfull : v.size = v.capacity
  · have hfit : v.capacity * 2 * sizeof_int < SIZE_MOD := by
      rcases hg with h | h
      · omega
      · exact h
    obtain ⟨_, hslots, hgt, _⟩ := new_capacity_fits hfit
    have hcount := push_back_copy_count_spec v.data v.size (by omega) (by omega) v.size 0
      (malloc ((new_capacity v.capacity * sizeof_int) % SIZE_MOD)) (Nat.zero_le _) (by omega)
      (by rw [malloc_length, hslots]; omega)
    simp only [push_back_copies, if_pos hfull]
    rw [hcount, Nat.sub_zero]
  · simp only [push_back_copies, if_neg hfull]

/-- Every run of appends that returns makes a number of copies that is the
growth of the capacity, an empty container counting for capacity `1`. -/
theorem push_back_all_copies_run :
    ∀ (xs : List Int) (v w : IntVector), Coherent v → push_back_all v xs = some w →
      ∃ c, push_back_all_copies v xs = some c ∧ c + max v.capacity 1 = max w.capacity 1 := by
  intro xs
  induction xs with
  | nil =>
    intro v w _ h
    simp only [push_back_all, Option.some.injEq] at h
    subst h
    exact ⟨0, rfl, Nat.zero_add _⟩
  | cons x xs ih =>
    intro v w hv h
    simp only [push_back_all] at h
    cases hu : IntVector_push_back v x with
    | none =>
      rw [hu] at h
      exact Option.noConfusion h
    | some u =>
      rw [hu] at h
      obtain ⟨hcu, _, hcap, hg⟩ := push_back_result v u x hv hu
      obtain ⟨c, hc, hsum⟩ := ih u w hcu h
      have hcopies := push_back_copies_spec v hv hg
      refine ⟨(if v.size = v.capacity then v.size else 0) + c, ?_, ?_⟩
      · simp only [push_back_all_copies, hcopies, hu, hc]
      · by_cases hfull : v.size = v.capacity
        · have hfit : v.capacity * 2 * sizeof_int < SIZE_MOD := by
            rcases hg with h | h
            · omega
            · exact h
          rw [if_pos hfull, (new_capacity_fits hfit).1] at hcap
          rw [if_pos hfull]
          by_cases h0 : v.capacity = 0
          · rw [if_pos h0] at hcap
            rw [hcap] at hsum
            rw [h0] at hfull ⊢
            rw [hfull]
            omega
          · rw [if_neg h0] at hcap
            rw [hcap] at hsum
            rw [hfull]
            omega
        · rw [if_neg hfull] at hcap ⊢
          rw [hcap] at hsum
          omega

theorem push_back_all_of_copies :
    ∀ (xs : List Int) (v : IntVector) (c : Nat), push_back_all_copies v xs = some c →
      ∃ w, push_back_all v xs = some w := by
  intro xs
  induction xs with
  | nil =>
    intro v c _
    exact ⟨v, rfl⟩
  | cons x xs ih =>
    intro v c h
    simp only [push_back_all_copies] at h
    cases hc : push_back_copies v with
    | none =>
      rw [hc] at h
      exact Option.noConfusion h
    | some c0 =>
      cases hu : IntVector_push_back v x with
      | none =>
        rw [hc, hu] at h
        exact Option.noConfusion h
      | some u =>
        rw [hc, hu] at h
        cases ht : push_back_all_copies u xs with
        | none => simp [ht] at h
        | some t =>
          obtain ⟨w, hw⟩ := ih u t ht
          exact ⟨w, by simp only [push_back_all, hu, hw]⟩

/-- C14: for every `n >= 1`, the total number of element copies that the
growth loop makes across `n` consecutive calls of `IntVector_push_back`
starting from `IntVector_new` is less than `2 n`.  The calls do return, with a
count, when the program can hold a buffer of twice as many slots as there are
values. -/
theorem push_back_all_copies_lt (xs : List Int) (h1 : 1 ≤ xs.length) :
    (∀ c, push_back_all_copies IntVector_new xs = some c → c < 2 * xs.length) ∧
    (Holdable (2 * xs.length) → ∃ c, push_back_all_copies IntVector_new xs = some c) := by
  have hrun : ∀ w, push_back_all IntVector_new xs = some w →
      ∃ c, push_back_all_copies IntVector_new xs = some c ∧ c < 2 * xs.length := by
    intro w hw
    obtain ⟨c, hc, hsum⟩ := push_back_all_copies_run xs IntVector_new w new_coherent hw
    obtain ⟨hwf, hp, hsize, _⟩ :=
      push_back_all_run xs IntVector_new w new_coherent new_powTwo hw
    have hsz : w.size = xs.length := by
      rw [hsize, show IntVector_new.size = 0 from rfl, Nat.zero_add]
    rw [show IntVector_new.capacity = 0 from rfl] at hsum
    refine ⟨c, hc, ?_⟩
    rcases hp with ⟨h0, _⟩ | ⟨k, _, hlt⟩
    · omega
    · have := hwf.1
      omega
  constructor
  · intro c hc
    obtain ⟨w, hw⟩ := push_back_all_of_copies xs IntVector_new c hc
    obtain ⟨c2, hc2, hlt⟩ := hrun w hw
    rw [hc] at hc2
    cases hc2
    exact hlt
  · intro hn
    obtain ⟨w, hw, _⟩ :=
      push_back_all_spec xs IntVector_new new_coherent new_powTwo
        (by rw [show IntVector_new.size = 0 from rfl, Nat.zero_add]; exact hn)
    obtain ⟨c, hc, _⟩ := hrun w hw
    exact ⟨c, hc⟩

/-- Witness of C14 on the sequence `3, 1, 4, 1, 5`: `0 + 1 + 2 + 0 + 4 = 7`
copies. -/
theorem push_back_all_copies_lt_witness :
    1 ≤ ([3, 1, 4, 1, 5] : List Int).length ∧
    Holdable (2 * ([3, 1, 4, 1, 5] : List Int).length) ∧
    push_back_all_copies IntVector_new [3, 1, 4, 1, 5] = some 7 ∧
    7 < 2 * ([3, 1, 4, 1, 5] : List Int).length ∧
    (∃ c, push_back_all_copies IntVector_new [3, 1, 4, 1, 5] = some c) :=
  ⟨by decide, by decide, by decide,
    (push_back_all_copies_lt [3, 1, 4, 1, 5] (by decide)).1 7 (by decide),
    (push_back_all_copies_lt [3, 1, 4, 1, 5] (by decide)).2 (by decide)⟩

end TinyGuard
